import Mathlib

/-!
Shallow embedding of the Gemini backtesting engine (`src/gemini/engine.py`).
The `exchange` module (Position / account) is not part of the sources; its
operations are modelled from the specification and marked as such in their
doc comments.  Prices and cash are rationals; bar dates are naturals.
-/

namespace Gemini

/-- One row of the price series (a bar).  The Python code accesses the
columns `date`, `open`, `high`, `low`, `close`, `volume`; `open` is a Lean
keyword so the field is named `open_price`. -/
structure Bar where
  date : ℕ
  open_price : ℚ
  high : ℚ
  low : ℚ
  close : ℚ
  volume : ℚ
deriving Repr, DecidableEq

/-- Modelled from the spec: a single open or closed trade.  `type` is the
string direction tag used by the engine (`"long"` / `"short"`), `shares`
the original quantity in units (entry capital divided by entry price),
`size` the remaining open quantity as a fraction of the original (1 at
open, terminal at 0), `exit_price` the pre-computed exit price used when
take-profit fires, and `stop_offset` the strategy's original stop offset
used by trailing-stop recomputation. -/
structure Position where
  type : String
  entry_price : ℚ
  entry_date : ℕ
  shares : ℚ
  size : ℚ
  stop_price : Option ℚ
  take_profit_price : Option ℚ
  trailing_stop : Bool
  exit_price : ℚ
  stop_offset : ℚ
deriving Repr, DecidableEq

/-- Modelled from the spec: stop trigger test.  For a long position true
if the extreme price (the bar's low) is at or below `stop_price`; for a
short position true if the extreme price (the bar's high) is at or above
`stop_price`.  An absent stop never fires. -/
def Position.stop_hit (p : Position) (extreme_price : ℚ) : Bool :=
  match p.stop_price with
  | none => false
  | some s =>
    if p.type = "long" then decide (extreme_price ≤ s)
    else if p.type = "short" then decide (s ≤ extreme_price)
    else false

/-- Modelled from the spec: take-profit trigger test.  For a long position
true if the extreme price (the bar's high) is at or above
`take_profit_price`; for a short position true if the extreme price (the
bar's low) is at or below it.  An absent target never fires. -/
def Position.tp_hit (p : Position) (extreme_price : ℚ) : Bool :=
  match p.take_profit_price with
  | none => false
  | some t =>
    if p.type = "long" then decide (t ≤ extreme_price)
    else if p.type = "short" then decide (extreme_price ≤ t)
    else false

/-- Modelled from the spec: trailing-stop adjustment.  If `trailing_stop`
is enabled, the stop is recomputed from the new reference price using the
original offset and applied only when it is more favorable (it never
loosens risk: up for long, down for short). -/
def Position.stop_adjust (p : Position) (new_reference_price : ℚ) : Position :=
  if p.trailing_stop then
    match p.stop_price with
    | none => p
    | some s =>
      if p.type = "long" then
        let c := new_reference_price - p.stop_offset
        if s < c then { p with stop_price := some c } else p
      else if p.type = "short" then
        let c := new_reference_price + p.stop_offset
        if c < s then { p with stop_price := some c } else p
      else p
  else p

/-- Modelled from the spec: mark-to-market value of one unit-scaled
position at a price: for a long the shares valued at the price, for a
short the entry value plus the favorable move. -/
def Position.mark_value (p : Position) (price : ℚ) : ℚ :=
  if p.type = "short" then p.shares * (2 * p.entry_price - price)
  else p.shares * price

/-- Modelled from the spec: the account owns cash, the open positions,
the opened/closed trade logs, the per-bar equity record and the last bar
date processed. -/
structure account where
  initial_capital : ℚ
  cash : ℚ
  positions : List Position
  opened_trades : List Position
  closed_trades : List Position
  equity : List ℚ
  date : ℕ
deriving Repr, DecidableEq

/-- Modelled from the spec: a fresh account funded with the initial
capital, no positions, empty logs. -/
def account.new (initial_capital : ℚ) : account :=
  ⟨initial_capital, initial_capital, [], [], [], [], 0⟩

/-- Modelled from the spec: `total_value(price)` is cash plus
mark-to-market of all currently open positions at the given price. -/
def account.total_value (a : account) (price : ℚ) : ℚ :=
  a.cash + (a.positions.map (fun p => p.size * p.mark_value price)).sum

/-- Modelled from the spec: validity of the stop/target ordering
invariant at open — for a long `stop < price < take_profit` when set, for
a short the inequalities reverse. -/
def stop_target_ok (type : String) (price : ℚ)
    (stop take_profit : Option ℚ) : Bool :=
  if type = "long" then
    (match stop with | none => true | some s => decide (s < price)) &&
    (match take_profit with | none => true | some t => decide (price < t))
  else if type = "short" then
    (match stop with | none => true | some s => decide (price < s)) &&
    (match take_profit with | none => true | some t => decide (t < price))
  else true

/-- Modelled from the spec: `open_position` constructs a Position,
appends it to `positions` and `opened_trades`, and debits the notional
`size_fraction × cash` from cash; it fails with `InvalidOrder` when
`size_fraction` is outside (0, 1] or the stop/target ordering invariant
is violated. -/
def account.open_position (a : account) (type : String)
    (size_fraction price : ℚ) (date : ℕ) (stop take_profit : Option ℚ)
    (trailing_stop : Bool) (exit_price stop_offset : ℚ) :
    Except String account :=
  if size_fraction ≤ 0 ∨ 1 < size_fraction then Except.error "InvalidOrder"
  else if stop_target_ok type price stop take_profit = false then
    Except.error "InvalidOrder"
  else
    let entry_capital := size_fraction * a.cash
    let p : Position :=
      ⟨type, price, date, entry_capital / price, 1, stop, take_profit,
        trailing_stop, exit_price, stop_offset⟩
    Except.ok { a with
      cash := a.cash - entry_capital,
      positions := a.positions ++ [p],
      opened_trades := a.opened_trades ++ [p] }

/-- Modelled from the spec: realized proceeds of closing `fraction` of the
original position at `price` (for a short, the entry value plus the
favorable move, per the mark-to-market invariant). -/
def close_proceeds (p : Position) (fraction price : ℚ) : ℚ :=
  fraction * p.shares *
    (if p.type = "short" then 2 * p.entry_price - price else price)

/-- Modelled from the spec: `close_position` reduces the position's `size`
by `fraction` of the original, credits cash with the realized proceeds at
`price`, and appends a snapshot to `closed_trades`.  The position is
identified by its index in the live `positions` collection (it is never
removed here — removal is `purge_positions`' job). -/
def account.close_position (a : account) (i : ℕ) (fraction price : ℚ) :
    account :=
  match a.positions[i]? with
  | none => a
  | some p =>
    { a with
      cash := a.cash + close_proceeds p fraction price,
      positions := a.positions.set i { p with size := p.size - fraction },
      closed_trades := a.closed_trades ++ [{ p with size := p.size - fraction }] }

/-- Modelled from the spec: `purge_positions` removes every position whose
`size` reached 0 from the live collection. -/
def account.purge_positions (a : account) : account :=
  { a with positions := a.positions.filter (fun p => decide (p.size ≠ 0)) }

/-- One operation the engine's per-position exit check can perform:
a (fractional) close at a price, or a trailing-stop adjustment from a
reference price. -/
inductive Event where
  | close (fraction price : ℚ)
  | adjust (new_reference_price : ℚ)
deriving Repr, DecidableEq

/-- The operations the engine performs on one position for one bar
(engine.py lines 52–71): a long-block and a short-block, each an
if/elif/else chain — stop close at the bar's low/high, else take-profit
close at the position's `exit_price`, else (when trailing is on and the
bar closed favorably) a trailing adjustment to the bar's close. -/
def exitEvents (p : Position) (b : Bar) : List Event :=
  (if p.type = "long" then
    (if p.stop_hit b.low then [Event.close 1 b.low]
     else if p.tp_hit b.high then [Event.close 1 p.exit_price]
     else if p.trailing_stop then
       (if b.close > b.open_price then [Event.adjust b.close] else [])
     else [])
   else []) ++
  (if p.type = "short" then
    (if p.stop_hit b.high then [Event.close 1 b.high]
     else if p.tp_hit b.low then [Event.close 1 p.exit_price]
     else if p.trailing_stop then
       (if b.close < b.open_price then [Event.adjust b.close] else [])
     else [])
   else [])

/-- Apply one exit-check operation to the account, on the position at
index `i` of the live collection. -/
def applyEvent (i : ℕ) (a : account) (e : Event) : account :=
  match e with
  | Event.close fraction price => a.close_position i fraction price
  | Event.adjust r =>
    match a.positions[i]? with
    | none => a
    | some p => { a with positions := a.positions.set i (p.stop_adjust r) }

/-- One iteration of the engine's exit-check loop: fetch the position at
index `i` of the live collection and apply the operations the code
performs for it. -/
def exitStep (b : Bar) (a : account) (i : ℕ) : account :=
  match a.positions[i]? with
  | none => a
  | some p => (exitEvents p b).foldl (applyEvent i) a

/-- The engine's per-bar exit-check phase (`for p in
self.account.positions: ...`): iterate the indices of the live positions
collection in order. -/
def exitPhase (b : Bar) (a : account) : account :=
  (List.range a.positions.length).foldl (exitStep b) a

/-- The exit-check phase instrumented to also record, in order, every
position fetched from the live collection during the iteration. -/
def exitStepExamined (b : Bar) (st : account × List Position) (i : ℕ) :
    account × List Position :=
  match st.1.positions[i]? with
  | none => st
  | some p => ((exitEvents p b).foldl (applyEvent i) st.1, st.2 ++ [p])

/-- Instrumented exit-check phase: the resulting account together with the
list of positions examined. -/
def exitPhaseExamined (b : Bar) (a : account) : account × List Position :=
  (List.range a.positions.length).foldl (exitStepExamined b) (a, [])

/-- One row of the per-bar tracker record built by the engine. -/
structure Row where
  date : ℕ
  benchmark_equity : ℚ
  strategy_equity : ℚ
deriving Repr, DecidableEq

/-- One bar of the engine loop (engine.py lines 46–91): compute the
equity at the bar's close, run the exit checks, purge, set the account
date, append the equity, append the tracker row, run the strategy
callback on the lookback up to and including this bar, purge again. -/
def stepBar (logic : account → List Bar → account) (data : List Bar)
    (i : ℕ) (st : account × List Row) : account × List Row :=
  match data[i]? with
  | none => st
  | some b =>
    let equity := st.1.total_value b.close
    let a1 := exitPhase b st.1
    let a2 := a1.purge_positions
    let a3 := { a2 with date := b.date, equity := a2.equity ++ [equity] }
    let rows := st.2 ++ [⟨b.date, b.close, equity⟩]
    let a4 := logic a3 (data.take (i + 1))
    (a4.purge_positions, rows)

/-- The engine state after processing the first `i` bars of the series. -/
def runBars (logic : account → List Bar → account) (data : List Bar)
    (initial_capital : ℚ) : ℕ → account × List Row
  | 0 => (account.new initial_capital, [])
  | i + 1 => stepBar logic data i (runBars logic data initial_capital i)

/-- `backtest.start`: run the loop over the whole series, returning the
final account and the tracker rows. -/
def start (data : List Bar) (initial_capital : ℚ)
    (logic : account → List Bar → account) : account × List Row :=
  runBars logic data initial_capital data.length

/-- Percentage change of consecutive equity values as pandas computes it,
with an undefined (`none`, i.e. NaN) result when the previous value is
zero. -/
def pct_change (prev cur : ℚ) : Option ℚ :=
  if prev = 0 then none else some ((cur - prev) / prev)

/-- Tail of the per-bar return series: each entry is the percentage
change from the previous value. -/
def returns_go (prev : ℚ) : List ℚ → List (Option ℚ)
  | [] => []
  | c :: t => pct_change prev c :: returns_go c t

/-- Per-bar return series derived from consecutive equity values; the
first entry is undefined (`none`). -/
def returns_series : List ℚ → List (Option ℚ)
  | [] => []
  | v :: t => none :: returns_go v t

/-- The `strategy_return` column computed by the engine post-loop. -/
def strategy_returns (rows : List Row) : List (Option ℚ) :=
  returns_series (rows.map Row.strategy_equity)

/-- Construction-time input as the engine sees it: whether the object is
a pandas DataFrame, and which columns it has. -/
structure RawInput where
  is_dataframe : Bool
  columns : List String
deriving Repr, DecidableEq

/-- The columns whose absence `backtest.__init__` warns about
(engine.py line 24) — note `date` is not among them. -/
def required_cols : List String := ["high", "low", "open", "close", "volume"]

/-- `backtest.__init__`: raise when the input is not a pandas DataFrame;
otherwise return the list of missing required columns (a warning is
issued exactly when that list is nonempty) and proceed. -/
def backtest_init (d : RawInput) : Except String (List String) :=
  if d.is_dataframe = false then
    Except.error "Data must be a pandas dataframe"
  else
    Except.ok (required_cols.filter (fun c => decide (c ∉ d.columns)))

/-- The account state handed to the strategy callback for a bar: the
start-of-bar account after the bar's exit checks, the purge, the date
update, and the equity append (the appended equity value being the one
computed at the start of the bar). -/
def callback_state (b : Bar) (a : account) : account :=
  let a2 := (exitPhase b a).purge_positions
  { a2 with date := b.date, equity := a2.equity ++ [a.total_value b.close] }

/-- Scenario account for the stop-loss pricing scenario: a fresh account
with initial capital 10000. -/
def c2_account0 : account := account.new 10000

/-- Scenario open: a long position of the full capital at price 100 with
stop 90. -/
def c2_opened : Except String account :=
  c2_account0.open_position "long" 1 100 0 (some 90) none false 0 0

/-- The position the scenario open constructs: 100 shares at entry 100,
size fraction 1, stop 90. -/
def c2_position : Position := ⟨"long", 100, 0, 100, 1, some 90, none, false, 0, 0⟩

/-- The scenario account with the open position and cash fully
invested. -/
def c2_account1 : account := ⟨10000, 0, [c2_position], [c2_position], [], [], 0⟩

/-- The scenario's next bar: low 85, high 95. -/
def c2_bar : Bar := ⟨1, 100, 95, 85, 92, 0⟩

/-- The scenario account after the bar's exit-check phase and purge. -/
def c2_after : account := (exitPhase c2_bar c2_account1).purge_positions

/-- Short position with take-profit 80 and pre-computed exit price 80. -/
def c4_pos : Position := ⟨"short", 100, 0, 1, 1, none, some 80, false, 80, 0⟩

/-- A bar whose low (75) is below the short position's take-profit. -/
def c4_bar : Bar := ⟨0, 100, 100, 75, 90, 0⟩

/-- A single-bar series used to instantiate the run-level theorems. -/
def c5_data : List Bar := [⟨0, 10, 12, 9, 11, 0⟩]

/-- A two-bar series used to instantiate the round-trip theorems. -/
def c8_data : List Bar := [⟨0, 1, 1, 1, 1, 0⟩, ⟨1, 2, 2, 2, 2, 0⟩]

/-- A strategy callback that issues no operations at all. -/
def c8_logic : account → List Bar → account := fun a _ => a

/-- A DataFrame input having the five checked price columns but no
`date` column. -/
def c9_no_date : RawInput := ⟨true, ["open", "high", "low", "close", "volume"]⟩

/-- A position whose direction tag is neither long nor short. -/
def c10_pos : Position := ⟨"flat", 100, 0, 1, 1, some 90, some 120, true, 0, 0⟩

/-- An account holding only the unknown-direction position. -/
def c10_account : account := ⟨1000, 1000, [c10_pos], [c10_pos], [], [], 0⟩

/-- A bar that would trigger both the stop and the take-profit of the
unknown-direction position if it were long or short. -/
def c10_bar : Bar := ⟨0, 100, 110, 80, 105, 0⟩

end Gemini

namespace Gemini

theorem long_ne_short : ¬ ("long" : String) = "short" := by decide

theorem short_ne_long : ¬ ("short" : String) = "long" := by decide

theorem applyEvent_positions_length (i : ℕ) (a : account) (e : Event) :
    (applyEvent i a e).positions.length = a.positions.length := by
  cases e with
  | close fraction price =>
    simp only [applyEvent, account.close_position]
    cases h : a.positions[i]? <;> simp
  | adjust r =>
    simp only [applyEvent]
    cases h : a.positions[i]? <;> simp

theorem applyEvent_positions_ne (i j : ℕ) (hij : i ≠ j) (a : account)
    (e : Event) : (applyEvent i a e).positions[j]? = a.positions[j]? := by
  cases e with
  | close fraction price =>
    simp only [applyEvent, account.close_position]
    cases h : a.positions[i]? <;> simp [List.getElem?_set_ne hij]
  | adjust r =>
    simp only [applyEvent]
    cases h : a.positions[i]? <;> simp [List.getElem?_set_ne hij]

theorem applyEvent_equity (i : ℕ) (a : account) (e : Event) :
    (applyEvent i a e).equity = a.equity := by
  cases e with
  | close fraction price =>
    simp only [applyEvent, account.close_position]
    cases h : a.positions[i]? <;> simp
  | adjust r =>
    simp only [applyEvent]
    cases h : a.positions[i]? <;> simp

theorem evFold_positions_length (i : ℕ) (l : List Event) (a : account) :
    (l.foldl (applyEvent i) a).positions.length = a.positions.length := by
  induction l generalizing a with
  | nil => rfl
  | cons e t ih => rw [List.foldl_cons, ih, applyEvent_positions_length]

theorem evFold_positions_ne (i j : ℕ) (hij : i ≠ j) (l : List Event)
    (a : account) :
    (l.foldl (applyEvent i) a).positions[j]? = a.positions[j]? := by
  induction l generalizing a with
  | nil => rfl
  | cons e t ih => rw [List.foldl_cons, ih, applyEvent_positions_ne i j hij]

theorem evFold_equity (i : ℕ) (l : List Event) (a : account) :
    (l.foldl (applyEvent i) a).equity = a.equity := by
  induction l generalizing a with
  | nil => rfl
  | cons e t ih => rw [List.foldl_cons, ih, applyEvent_equity]

theorem exitStep_positions_length (b : Bar) (a : account) (i : ℕ) :
    (exitStep b a i).positions.length = a.positions.length := by
  unfold exitStep
  cases h : a.positions[i]? with
  | none => rfl
  | some p => exact evFold_positions_length i _ a

theorem exitStep_positions_ne (b : Bar) (a : account) (i j : ℕ)
    (hij : i ≠ j) :
    (exitStep b a i).positions[j]? = a.positions[j]? := by
  unfold exitStep
  cases h : a.positions[i]? with
  | none => rfl
  | some p => exact evFold_positions_ne i j hij _ a

theorem exitStep_equity (b : Bar) (a : account) (i : ℕ) :
    (exitStep b a i).equity = a.equity := by
  unfold exitStep
  cases h : a.positions[i]? with
  | none => rfl
  | some p => exact evFold_equity i _ a

theorem examined_go (b : Bar) (a0 : account) :
    ∀ (m k : ℕ) (a : account) (acc : List Position),
      a.positions.length = a0.positions.length →
      (∀ j, k ≤ j → a.positions[j]? = a0.positions[j]?) →
      (List.range' k m).foldl (exitStepExamined b) (a, acc)
        = ((List.range' k m).foldl (exitStep b) a,
            acc ++ (a0.positions.drop k).take m) := by
  intro m
  induction m with
  | zero => intro k a acc hlen hagree; simp
  | succ m ih =>
    intro k a acc hlen hagree
    rw [List.range'_succ, List.foldl_cons, List.foldl_cons]
    by_cases hk : k < a0.positions.length
    · have hsome : a.positions[k]? = some a0.positions[k] := by
        rw [hagree k (le_refl k)]
        exact List.getElem?_eq_getElem hk
      have hstepEx : exitStepExamined b (a, acc) k
          = ((exitEvents a0.positions[k] b).foldl (applyEvent k) a,
             acc ++ [a0.positions[k]]) := by
        unfold exitStepExamined
        rw [hsome]
      have hstep : exitStep b a k
          = (exitEvents a0.positions[k] b).foldl (applyEvent k) a := by
        unfold exitStep
        rw [hsome]
      rw [hstepEx, hstep]
      rw [ih (k + 1) _ _ ?hlen ?hagree]
      · rw [List.drop_eq_getElem_cons hk, List.take_succ_cons,
          List.append_assoc]
        rfl
      case hlen => rw [evFold_positions_length, hlen]
      case hagree =>
        intro j hj
        rw [evFold_positions_ne k j (by omega)]
        exact hagree j (by omega)
    · have hnone : a.positions[k]? = none := by
        rw [hagree k (le_refl k)]
        exact List.getElem?_eq_none (by omega)
      have hstepEx : exitStepExamined b (a, acc) k = (a, acc) := by
        unfold exitStepExamined
        rw [hnone]
      have hstep : exitStep b a k = a := by
        unfold exitStep
        rw [hnone]
      rw [hstepEx, hstep]
      rw [ih (k + 1) _ _ hlen (fun j hj => hagree j (by omega))]
      have hd1 : List.drop (k + 1) a0.positions = [] :=
        List.drop_eq_nil_of_le (by omega)
      have hd0 : List.drop k a0.positions = [] :=
        List.drop_eq_nil_of_le (by omega)
      rw [hd1, hd0]
      simp

theorem exitEvents_other (p : Position) (b : Bar) (h1 : ¬ p.type = "long")
    (h2 : ¬ p.type = "short") : exitEvents p b = [] := by
  simp [exitEvents, h1, h2]

theorem foldSteps_preserve (b : Bar) (i : ℕ) (p : Position)
    (hev : exitEvents p b = []) :
    ∀ (l : List ℕ) (a : account), a.positions[i]? = some p →
      (l.foldl (exitStep b) a).positions[i]? = some p := by
  intro l
  induction l with
  | nil => intro a h; exact h
  | cons j t ih =>
    intro a h
    rw [List.foldl_cons]
    apply ih
    by_cases hji : j = i
    · subst hji
      have hstep : exitStep b a j = a := by
        simp [exitStep, h, hev]
      rw [hstep]
      exact h
    · rw [exitStep_positions_ne b a j i hji]
      exact h

theorem purge_mem (a : account) (p : Position) :
    p ∈ a.purge_positions.positions ↔ p ∈ a.positions ∧ p.size ≠ 0 := by
  simp [account.purge_positions, List.mem_filter]

theorem foldSteps_equity (b : Bar) (l : List ℕ) (a : account) :
    (l.foldl (exitStep b) a).equity = a.equity := by
  induction l generalizing a with
  | nil => rfl
  | cons j t ih => rw [List.foldl_cons, ih, exitStep_equity]

theorem exitPhase_equity (b : Bar) (a : account) :
    (exitPhase b a).equity = a.equity := foldSteps_equity b _ a

theorem purge_positions_equity (a : account) :
    a.purge_positions.equity = a.equity := rfl

theorem close_position_equity (a : account) (i : ℕ) (fraction price : ℚ) :
    (a.close_position i fraction price).equity = a.equity := by
  unfold account.close_position
  cases h : a.positions[i]? <;> rfl

theorem open_position_equity (a a' : account) (type : String)
    (size_fraction price : ℚ) (date : ℕ) (stop take_profit : Option ℚ)
    (trailing_stop : Bool) (exit_price stop_offset : ℚ)
    (h : a.open_position type size_fraction price date stop take_profit
          trailing_stop exit_price stop_offset = Except.ok a') :
    a'.equity = a.equity := by
  unfold account.open_position at h
  split at h
  · exact absurd h (by simp)
  · split at h
    · exact absurd h (by simp)
    · simp only [Except.ok.injEq] at h
      rw [← h]

theorem stepBar_equity (logic : account → List Bar → account)
    (data : List Bar) (i : ℕ) (st : account × List Row)
    (hl : ∀ a lb, (logic a lb).equity = a.equity)
    (bb : Bar) (hb : data[i]? = some bb) :
    (stepBar logic data i st).1.equity
      = st.1.equity ++ [st.1.total_value bb.close] := by
  simp [stepBar, hb, account.purge_positions, hl, exitPhase_equity]

theorem runBars_equity_len (logic : account → List Bar → account)
    (data : List Bar) (cap : ℚ)
    (hl : ∀ a lb, (logic a lb).equity = a.equity) :
    ∀ i, i ≤ data.length →
      (runBars logic data cap i).1.equity.length = i := by
  intro i
  induction i with
  | zero => intro _; rfl
  | succ i ih =>
    intro h
    have hlt : i < data.length := by omega
    obtain ⟨bb, hb⟩ : ∃ bb, data[i]? = some bb :=
      ⟨data[i], List.getElem?_eq_getElem hlt⟩
    simp only [runBars]
    rw [stepBar_equity logic data i _ hl bb hb, List.length_append,
      ih (by omega)]
    rfl

theorem exitPhase_of_empty (b : Bar) (a : account) (h : a.positions = []) :
    exitPhase b a = a := by
  unfold exitPhase
  rw [h]
  rfl

theorem purge_positions_of_empty (a : account) (h : a.positions = []) :
    a.purge_positions = a := by
  cases a with
  | mk ic c ps ot ct eq d =>
    simp only at h
    subst h
    rfl

theorem total_value_of_empty (a : account) (price : ℚ)
    (h : a.positions = []) : a.total_value price = a.cash := by
  simp [account.total_value, h]

theorem c8_invariant (data : List Bar) (cap : ℚ)
    (logic : account → List Bar → account)
    (hl : ∀ a lb, a.positions = [] →
      (logic a lb).positions = [] ∧ (logic a lb).cash = a.cash) :
    ∀ i, (runBars logic data cap i).1.positions = []
      ∧ (runBars logic data cap i).1.cash = cap
      ∧ (runBars logic data cap i).2.map Row.strategy_equity
          = List.replicate (min i data.length) cap := by
  intro i
  induction i with
  | zero =>
    refine ⟨rfl, rfl, ?_⟩
    rw [Nat.zero_min]
    rfl
  | succ i ih =>
    obtain ⟨hpos, hcash, hrows⟩ := ih
    simp only [runBars]
    cases hb : data[i]? with
    | none =>
      have hle : data.length ≤ i := List.getElem?_eq_none_iff.mp hb
      rw [stepBar, hb]
      refine ⟨hpos, hcash, ?_⟩
      rw [hrows]
      congr 1
      omega
    | some bb =>
      have hlt : i < data.length := by
        rcases List.getElem?_eq_some.mp hb with ⟨h, _⟩
        exact h
      rw [stepBar, hb]
      simp only
      have h1 : exitPhase bb (runBars logic data cap i).1
          = (runBars logic data cap i).1 :=
        exitPhase_of_empty bb _ hpos
      have h2 : (runBars logic data cap i).1.purge_positions
          = (runBars logic data cap i).1 :=
        purge_positions_of_empty _ hpos
      have h3 : (runBars logic data cap i).1.total_value bb.close = cap := by
        rw [total_value_of_empty _ bb.close hpos, hcash]
      rw [h1, h2]
      obtain ⟨hlp, hlc⟩ :=
        hl { (runBars logic data cap i).1 with date := bb.date, equity := (runBars logic data cap i).1.equity ++ [(runBars logic data cap i).1.total_value bb.close] } (data.take (i + 1)) hpos
      refine ⟨?_, ?_, ?_⟩
      · rw [purge_positions_of_empty _ hlp]
        exact hlp
      · rw [purge_positions_of_empty _ hlp, hlc]
        exact hcash
      · rw [List.map_append, hrows, h3]
        have hmm : min (i + 1) data.length = min i data.length + 1 := by omega
        rw [hmm, List.replicate_succ']
        rfl

theorem returns_go_const (c : ℚ) (hc : ¬ c = 0) (m : ℕ) :
    returns_go c (List.replicate m c) = List.replicate m (some 0) := by
  induction m with
  | zero => rfl
  | succ m ih => simp [List.replicate_succ, returns_go, pct_change, hc, ih]

theorem c2_open_ok : c2_opened = Except.ok c2_account1 := by
  norm_num [c2_opened, c2_account0, c2_account1, c2_position, account.new,
    account.open_position, stop_target_ok]

end Gemini

namespace Gemini

/-- Claim C1: for every open position and every bar, at most one of
stop-loss close, take-profit close, trailing-stop adjustment is performed
on that position during the bar's exit-check phase; the stop is checked
first (a firing stop produces exactly the stop close, even when the
take-profit would also fire), and a trailing adjustment happens only when
neither exit fired. -/
theorem c1_exit_checks_mutually_exclusive (p : Position) (b : Bar) :
    (exitEvents p b).length ≤ 1
    ∧ (p.type = "long" → p.stop_hit b.low = true →
        exitEvents p b = [Event.close 1 b.low])
    ∧ (p.type = "short" → p.stop_hit b.high = true →
        exitEvents p b = [Event.close 1 b.high])
    ∧ (∀ r, Event.adjust r ∈ exitEvents p b →
        (p.type = "long" ∧ p.stop_hit b.low = false ∧ p.tp_hit b.high = false)
        ∨ (p.type = "short" ∧ p.stop_hit b.high = false
            ∧ p.tp_hit b.low = false)) := by
  by_cases hL : p.type = "long"
  · have hS : ¬ p.type = "short" := by rw [hL]; decide
    by_cases h1 : p.stop_hit b.low
    · simp [exitEvents, hL, hS, h1]
    · by_cases h2 : p.tp_hit b.high
      · simp [exitEvents, hL, hS, h1, h2]
      · rcases ht : p.trailing_stop
        · simp [exitEvents, hL, hS, h1, h2, ht]
        · by_cases h3 : b.close > b.open_price
          · simp [exitEvents, hL, hS, h1, h2, ht, h3, h1, h2]
          · simp [exitEvents, hL, hS, h1, h2, ht, h3]
  · by_cases hS : p.type = "short"
    · by_cases h1 : p.stop_hit b.high
      · simp [exitEvents, hL, hS, h1]
      · by_cases h2 : p.tp_hit b.low
        · simp [exitEvents, hL, hS, h1, h2]
        · rcases ht : p.trailing_stop
          · simp [exitEvents, hL, hS, h1, h2, ht]
          · by_cases h3 : b.close < b.open_price
            · simp [exitEvents, hL, hS, h1, h2, ht, h3]
            · simp [exitEvents, hL, hS, h1, h2, ht, h3]
    · simp [exitEvents, hL, hS]

/-- Claim C2, counterexample: in the stated scenario (capital 10000, a
full-size long at 100 with stop 90, next bar low 85 / high 95), the
engine closes the position at the bar's low — the only operation the
exit check performs is a full close at 85 — and cash afterward is 8500,
not the claimed 9000. -/
theorem c2_counterexample : c2_after.cash = 8500 ∧ ¬ c2_after.cash = 9000
    ∧ (∀ p ∈ c2_account1.positions,
        exitEvents p c2_bar = [Event.close 1 85]) := by
  norm_num [c2_after, c2_bar, c2_account1, c2_position, exitPhase, exitStep,
    exitEvents, applyEvent, account.close_position, account.purge_positions,
    Position.stop_hit, Position.tp_hit, close_proceeds, List.range_succ,
    long_ne_short]

/-- Claim C2, amended: with initial capital 10000, a single long position
opened with the full capital at price 100 and stop 90, and a next bar
with low 85 and high 95, the loop closes the position at the bar's low
(85, the price passed to `close_position`), and cash afterward equals
8500. -/
theorem c2_scenario_amended : c2_opened = Except.ok c2_account1
    ∧ (∀ p ∈ c2_account1.positions,
        exitEvents p c2_bar = [Event.close 1 c2_bar.low])
    ∧ c2_after.cash = 8500 ∧ c2_after.positions = [] := by
  refine ⟨c2_open_ok, ?_⟩
  norm_num [c2_after, c2_bar, c2_account1, c2_position, exitPhase, exitStep,
    exitEvents, applyEvent, account.close_position, account.purge_positions,
    Position.stop_hit, Position.tp_hit, close_proceeds, List.range_succ,
    long_ne_short]

/-- Claim C3: the per-bar exit-check phase examines exactly the positions
open at the start of the phase, in order — the live iteration (whose
collection the `close_position` calls mutate) fetches precisely the
start-of-phase snapshot, and running the phase against the live
collection gives the same account as that snapshot run. -/
theorem c3_exit_phase_examines_snapshot (b : Bar) (a : account) :
    (exitPhaseExamined b a).2 = a.positions
    ∧ (exitPhaseExamined b a).1 = exitPhase b a := by
  have h := examined_go b a a.positions.length 0 a [] rfl (fun j _ => rfl)
  unfold exitPhaseExamined exitPhase
  rw [List.range_eq_range', h]
  simp

/-- Claim C4: when a short position's take-profit fires (the bar's low at
or below the target) and its stop did not fire, the engine performs
exactly one operation: a full close at the position's `exit_price`, not
at the bar's low. -/
theorem c4_short_tp_closes_at_exit_price (p : Position) (b : Bar)
    (htype : p.type = "short") (hstop : p.stop_hit b.high = false)
    (htp : p.tp_hit b.low = true) :
    exitEvents p b = [Event.close 1 p.exit_price] := by
  have hL : ¬ p.type = "long" := by rw [htype]; decide
  simp [exitEvents, hL, htype, hstop, htp]

/-- Witness for C4: the spec's scenario — take-profit 80, exit price 80,
bar low 75 — closes at 80. -/
theorem c4_short_tp_witness : c4_pos.type = "short"
    ∧ c4_pos.stop_hit c4_bar.high = false
    ∧ c4_pos.tp_hit c4_bar.low = true
    ∧ exitEvents c4_pos c4_bar = [Event.close 1 c4_pos.exit_price] :=
  ⟨rfl, by rfl,
    by norm_num [c4_pos, c4_bar, Position.tp_hit, short_ne_long],
    c4_short_tp_closes_at_exit_price c4_pos c4_bar rfl (by rfl)
      (by norm_num [c4_pos, c4_bar, Position.tp_hit, short_ne_long])⟩

/-- Claim C5: for every series and every strategy callback that leaves
the equity log alone (as the account's open/close/purge operations do),
the account's equity record after a run has exactly one entry per bar,
appended in bar order, and the entry appended for bar `i` is the
account's `total_value` at that bar's close computed on the start-of-bar
state — before the bar's exit closes and before the callback runs. -/
theorem c5_equity_per_bar (data : List Bar) (cap : ℚ)
    (logic : account → List Bar → account)
    (hl : ∀ a lb, (logic a lb).equity = a.equity) :
    (start data cap logic).1.equity.length = data.length
    ∧ ∀ i bb, data[i]? = some bb →
        (runBars logic data cap (i + 1)).1.equity
          = (runBars logic data cap i).1.equity
            ++ [(runBars logic data cap i).1.total_value bb.close] := by
  constructor
  · exact runBars_equity_len logic data cap hl data.length (le_refl _)
  · intro i bb hb
    simp only [runBars]
    exact stepBar_equity logic data i _ hl bb hb

/-- Witness for C5: instantiated on a one-bar series with the
do-nothing callback. -/
theorem c5_equity_witness : (∀ a lb, (c8_logic a lb).equity = a.equity)
    ∧ ((start c5_data 100 c8_logic).1.equity.length = c5_data.length
      ∧ ∀ i bb, c5_data[i]? = some bb →
          (runBars c8_logic c5_data 100 (i + 1)).1.equity
            = (runBars c8_logic c5_data 100 i).1.equity
              ++ [(runBars c8_logic c5_data 100 i).1.total_value bb.close]) :=
  ⟨fun _ _ => rfl, c5_equity_per_bar c5_data 100 c8_logic (fun _ _ => rfl)⟩

/-- Claim C6: for every bar of the series, the bar's step applies the
strategy callback exactly once, to the state after the bar's exit
checks, purge, date update and equity recording, with the lookback being
the sub-series of the first `i + 1` bars — which has length `i + 1` and
agrees with the input series at every index up to `i` — and the only
mutation after the callback is the final purge. -/
theorem c6_callback_invocation (data : List Bar) (cap : ℚ)
    (logic : account → List Bar → account) :
    ∀ i bb, data[i]? = some bb →
      (runBars logic data cap (i + 1)
        = ((logic (callback_state bb (runBars logic data cap i).1)
              (data.take (i + 1))).purge_positions,
           (runBars logic data cap i).2
             ++ [⟨bb.date, bb.close,
                  (runBars logic data cap i).1.total_value bb.close⟩]))
      ∧ (data.take (i + 1)).length = i + 1
      ∧ (∀ j, j ≤ i → (data.take (i + 1))[j]? = data[j]?) := by
  intro i bb hb
  have hlt : i < data.length := by
    rcases List.getElem?_eq_some.mp hb with ⟨h, _⟩
    exact h
  refine ⟨?_, ?_, ?_⟩
  · simp only [runBars]
    simp [stepBar, hb, callback_state]
  · rw [List.length_take]
    omega
  · intro j hj
    rw [List.getElem?_take]
    simp [Nat.lt_succ_of_le hj]

/-- Witness for C6: instantiated on the one-bar series at bar 0 with the
do-nothing callback. -/
theorem c6_callback_witness :
    (c5_data[0]? = some ⟨0, 10, 12, 9, 11, 0⟩)
    ∧ ((runBars c8_logic c5_data 100 (0 + 1)
        = ((c8_logic (callback_state ⟨0, 10, 12, 9, 11, 0⟩
              (runBars c8_logic c5_data 100 0).1)
              (c5_data.take (0 + 1))).purge_positions,
           (runBars c8_logic c5_data 100 0).2
             ++ [⟨(0 : ℕ), (11 : ℚ),
                  (runBars c8_logic c5_data 100 0).1.total_value 11⟩]))
      ∧ (c5_data.take (0 + 1)).length = 0 + 1
      ∧ (∀ j, j ≤ 0 → (c5_data.take (0 + 1))[j]? = c5_data[j]?)) :=
  ⟨rfl, c6_callback_invocation c5_data 100 c8_logic 0 ⟨0, 10, 12, 9, 11, 0⟩ rfl⟩

/-- Claim C7: a trailing-stop adjustment is invoked on a position in a
bar exactly when no exit fired for it and the bar closed favorably — for
a long, `trailing_stop` with the bar's close above its open; for a
short, the mirrored condition — and the adjustment reference is the
bar's close.  In particular no adjustment ever happens in a bar where an
exit fired. -/
theorem c7_trailing_adjust_characterization (p : Position) (b : Bar)
    (r : ℚ) :
    Event.adjust r ∈ exitEvents p b ↔
      (r = b.close ∧ p.trailing_stop = true ∧
        ((p.type = "long" ∧ p.stop_hit b.low = false ∧ p.tp_hit b.high = false
           ∧ b.open_price < b.close)
         ∨ (p.type = "short" ∧ p.stop_hit b.high = false
           ∧ p.tp_hit b.low = false ∧ b.close < b.open_price))) := by
  by_cases hL : p.type = "long"
  · have hS : ¬ p.type = "short" := by rw [hL]; decide
    by_cases h1 : p.stop_hit b.low
    · simp [exitEvents, hL, hS, h1]
    · by_cases h2 : p.tp_hit b.high
      · simp [exitEvents, hL, hS, h1, h2]
      · rcases ht : p.trailing_stop
        · simp [exitEvents, hL, hS, h1, h2, ht]
        · by_cases h3 : b.close > b.open_price
          · simp [exitEvents, hL, hS, h1, h2, ht, h3]
          · simp [exitEvents, hL, hS, h1, h2, ht, h3]
  · by_cases hS : p.type = "short"
    · have hL2 : ¬ p.type = "long" := hL
      by_cases h1 : p.stop_hit b.high
      · simp [exitEvents, hL2, hS, h1]
      · by_cases h2 : p.tp_hit b.low
        · simp [exitEvents, hL2, hS, h1, h2]
        · rcases ht : p.trailing_stop
          · simp [exitEvents, hL2, hS, h1, h2, ht]
          · by_cases h3 : b.close < b.open_price
            · simp [exitEvents, hL2, hS, h1, h2, ht, h3]
            · simp [exitEvents, hL2, hS, h1, h2, ht, h3]
    · simp [exitEvents, hL, hS]

/-- Claim C8, counterexample: with initial capital 0 and a callback that
never opens a position, the strategy-return entry after the first is
undefined (0/0, i.e. NaN), not zero — refuting the claim for every
initial capital. -/
theorem c8_counterexample :
    strategy_returns (start c8_data 0 c8_logic).2 = [none, none]
    ∧ ¬ (strategy_returns (start c8_data 0 c8_logic).2)[1]?
        = some (some 0) := by
  norm_num [c8_data, c8_logic, start, runBars, stepBar, exitPhase, exitStep,
    account.new, account.total_value, account.purge_positions,
    strategy_returns, returns_series, returns_go, pct_change]
  simp

/-- Claim C8, amended: for every input series and every nonzero initial
capital, a run with a strategy callback that never opens a position (so
it keeps the position set empty and the cash unchanged) records
`strategy_equity` equal to the initial capital on every bar, and the
strategy-return series is undefined at its first entry and zero at every
entry after it. -/
theorem c8_round_trip_amended (data : List Bar) (cap : ℚ)
    (logic : account → List Bar → account)
    (hcap : ¬ cap = 0)
    (hl : ∀ a lb, a.positions = [] →
      (logic a lb).positions = [] ∧ (logic a lb).cash = a.cash) :
    ((start data cap logic).2.map Row.strategy_equity
        = List.replicate data.length cap)
    ∧ strategy_returns (start data cap logic).2
        = (if data.length = 0 then []
           else none :: List.replicate (data.length - 1) (some 0)) := by
  have hrows := (c8_invariant data cap logic hl data.length).2.2
  rw [min_self] at hrows
  simp only [start]
  refine ⟨hrows, ?_⟩
  rw [strategy_returns, hrows]
  cases hn : data.length with
  | zero => rfl
  | succ m =>
    simp only [List.replicate_succ, returns_series, Nat.succ_ne_zero,
      if_false, Nat.succ_sub_one]
    rw [returns_go_const cap hcap m]

/-- Witness for C8: the two-bar series with capital 7 and the do-nothing
callback. -/
theorem c8_round_trip_witness : (¬ (7 : ℚ) = 0)
    ∧ (((start c8_data 7 c8_logic).2.map Row.strategy_equity
        = List.replicate c8_data.length 7)
      ∧ strategy_returns (start c8_data 7 c8_logic).2
          = (if c8_data.length = 0 then []
             else none :: List.replicate (c8_data.length - 1) (some 0))) :=
  ⟨by norm_num,
    c8_round_trip_amended c8_data 7 c8_logic (by norm_num)
      (fun _ _ h => ⟨h, rfl⟩)⟩

/-- Claim C9, counterexample: a pandas DataFrame missing the `date`
column is accepted at construction with no warning at all — the missing
`date` field does not issue a recoverable warning, refuting the claim's
coverage of `date`. -/
theorem c9_counterexample : backtest_init c9_no_date = Except.ok []
    ∧ ¬ ("date" ∈ c9_no_date.columns) := by
  constructor
  · rfl
  · decide

/-- Claim C9, amended: construction fails with an error exactly when the
input is not a pandas DataFrame; otherwise it succeeds, issuing a
warning exactly when one of the five checked columns `{open, high, low,
close, volume}` is missing — a missing `date` column is not checked and
issues no warning. -/
theorem c9_init_amended (d : RawInput) :
    (d.is_dataframe = false →
      backtest_init d = Except.error "Data must be a pandas dataframe")
    ∧ (d.is_dataframe = true → ∃ w, backtest_init d = Except.ok w ∧
        (w = [] ↔ ∀ c ∈ required_cols, c ∈ d.columns)) := by
  constructor
  · intro h; simp [backtest_init, h]
  · intro h
    refine ⟨required_cols.filter (fun c => decide (c ∉ d.columns)), ?_, ?_⟩
    · simp [backtest_init, h]
    constructor
    · intro hw c hc
      by_contra hmem
      have hmm : c ∈ List.filter (fun c => decide (c ∉ d.columns))
          required_cols := by
        rw [List.mem_filter]; exact ⟨hc, by simpa using hmem⟩
      rw [hw] at hmm
      simp at hmm
    · intro hall
      rw [List.filter_eq_nil_iff]
      intro c hc
      simpa using hall c hc

/-- Claim C10: a position whose direction tag is neither long nor short
is left entirely untouched by the exit-check phase — the engine performs
no operation on it, it survives the whole phase unchanged at its index —
and after the purge it remains in the account exactly when its size is
nonzero. -/
theorem c10_unknown_direction_untouched (a : account) (b : Bar) (i : ℕ)
    (p : Position) (hp : a.positions[i]? = some p)
    (h1 : ¬ p.type = "long") (h2 : ¬ p.type = "short") :
    exitEvents p b = []
    ∧ (exitPhase b a).positions[i]? = some p
    ∧ (p ∈ ((exitPhase b a).purge_positions).positions ↔ ¬ p.size = 0) := by
  have hev := exitEvents_other p b h1 h2
  refine ⟨hev, foldSteps_preserve b i p hev _ a hp, ?_⟩
  rw [purge_mem]
  have hmem : p ∈ (exitPhase b a).positions :=
    List.getElem?_mem (foldSteps_preserve b i p hev _ a hp)
  constructor
  · rintro ⟨_, hs⟩; exact hs
  · intro hs; exact ⟨hmem, hs⟩

/-- Witness for C10: a `"flat"` position with nonzero size on a bar that
would trigger both its stop and its take-profit if it had a known
direction. -/
theorem c10_unknown_direction_witness :
    c10_account.positions[0]? = some c10_pos
    ∧ ¬ c10_pos.type = "long" ∧ ¬ c10_pos.type = "short"
    ∧ (exitEvents c10_pos c10_bar = []
      ∧ (exitPhase c10_bar c10_account).positions[0]? = some c10_pos
      ∧ (c10_pos ∈ ((exitPhase c10_bar c10_account).purge_positions).positions
          ↔ ¬ c10_pos.size = 0)) :=
  ⟨rfl, by decide, by decide,
    c10_unknown_direction_untouched c10_account c10_bar 0 c10_pos rfl
      (by decide) (by decide)⟩

end Gemini
